import Mathlib

/-!
Verification development for the VideoDepthViewer3D backend (Python).

Each Python component that the specification talks about is shallowly
embedded as executable Lean definitions: numpy float arrays become lists of
rationals, machine integers become Nat/Int with explicit range conditions
where the Python runtime enforces them, fallible code returns Except, and
the asynchronous streaming pipeline becomes a labelled transition system.
The embedded definitions follow the Python source line by line; theorems
below settle the specification claims against them.
-/

namespace VDV

/-! ## Depth payload codec (backend/utils/packets.py)

Floats are modelled as exact rationals.  The 32-byte header is modelled
structurally: the integer fields carry the exact values struct.pack would
serialize (struct raises for out-of-range u32 arguments, which the model
reproduces), and the three f32 fields (scale, bias, z_max) are kept as the
rational values handed to struct.pack.  Pixel data is modelled down to the
little-endian byte level, matching the uncompressed path (the deployed
default, depth_compression_level = 0); the zlib branch differs only in the
payload bytes and the magic, which no claim depends on. -/

/-- Elementwise clamp, modelling np.clip (maximum with the lower bound,
then minimum with the upper bound). -/
def clampQ (lo hi x : ℚ) : ℚ := min (max x lo) hi

/-- Round half to even on rationals, modelling np.rint. -/
def rintQ (x : ℚ) : ℤ :=
  if x - ⌊x⌋ < 1/2 then ⌊x⌋
  else if 1/2 < x - ⌊x⌋ then ⌊x⌋ + 1
  else if ⌊x⌋ % 2 = 0 then ⌊x⌋ else ⌊x⌋ + 1

/-- Truncation toward zero, modelling Python int() applied to a float. -/
def truncQ (x : ℚ) : ℤ := if 0 ≤ x then ⌊x⌋ else ⌈x⌉

/-- Modular cast to uint16, modelling astype with a u2 little-endian dtype. -/
def toU16 (z : ℤ) : ℕ := (z % 65536).toNat

/-- Result of quantize_depth.  Besides the returned triple
(encoded, scale, bias) the model records the contents of the caller's
depth buffer after the call, because np.clip is invoked with out=depth
and therefore mutates the argument in place. -/
structure QuantResult where
  encoded : List ℕ
  scale : ℚ
  bias : ℚ
  bufferAfter : List ℚ
  deriving Repr, DecidableEq

/-- The z_max adjustment at the top of quantize_depth: if z_max is not
strictly above z_min it is replaced by z_min + 1e-3. -/
def adjustZmax (zmin zmax : ℚ) : ℚ := if zmax ≤ zmin then zmin + 1/1000 else zmax

/-- quantize_depth from backend/utils/packets.py on the flattened pixel
data: adjust z_max, compute scale = (z_max - z_min) / 65535, clamp the
buffer in place, normalize, round to nearest and cast to u16. -/
def quantize_depth (depth : List ℚ) (zmin zmax : ℚ) : QuantResult :=
  let zmaxAdj := adjustZmax zmin zmax
  let scale := (zmaxAdj - zmin) / 65535
  let clamped := depth.map (clampQ zmin zmaxAdj)
  { encoded := clamped.map (fun d => toU16 (rintQ ((d - zmin) / scale)))
    scale := scale
    bias := zmin
    bufferAfter := clamped }

/-- A 2-D numpy depth array: shape (height, width) plus flattened data. -/
structure DepthArray where
  height : ℕ
  width : ℕ
  data : List ℚ
  deriving Repr, DecidableEq

/-- The structured contents of a packed depth payload: the header fields
in order, followed by the pixel payload bytes. -/
structure DepthPayload where
  magic : String
  version : ℕ
  dataType : ℕ
  timestamp : ℕ
  width : ℕ
  height : ℕ
  scale : ℚ
  bias : ℚ
  z_max : ℚ
  pixelBytes : List ℕ
  deriving Repr, DecidableEq

/-- Little-endian byte pair of a u16 value. -/
def u16le (n : ℕ) : List ℕ := [n % 256, n / 256 % 256]

/-- Serialize a list of u16 pixels as consecutive little-endian pairs,
modelling ndarray.tobytes on a little-endian u2 array. -/
def rawPixelBytes (encoded : List ℕ) : List ℕ := (encoded.map u16le).flatten

/-- Read back little-endian u16 pixels from a byte stream (the decode
procedure the specification describes for the payload body). -/
def readU16LE : List ℕ → List ℕ
  | b0 :: b1 :: rest => (b0 + 256 * b1) :: readU16LE rest
  | _ => []

/-- Python struct range check for the u32 format code: struct.pack
raises struct.error unless 0 ≤ v < 2^32. -/
def u32OK (z : ℤ) : Prop := 0 ≤ z ∧ z < 4294967296

instance (z : ℤ) : Decidable (u32OK z) := by unfold u32OK; infer_instance

/-- pack_depth_payload from backend/utils/packets.py (uncompressed path):
quantize, serialize the pixels, and pack the 32-byte header.  The header
timestamp field receives int(timestamp_ms); struct.pack raises
struct.error when that integer (or a shape field) is outside u32 range,
which the model reflects with Except.error. -/
def pack_depth_payload (depth : DepthArray) (timestamp_ms zmin zmax : ℚ) :
    Except String DepthPayload :=
  let q := quantize_depth depth.data zmin zmax
  let ts := truncQ timestamp_ms
  if u32OK ts ∧ u32OK depth.width ∧ u32OK depth.height then
    Except.ok
      { magic := "VDZ1"
        version := 1
        dataType := 1
        timestamp := ts.toNat
        width := depth.width
        height := depth.height
        scale := q.scale
        bias := q.bias
        z_max := zmax
        pixelBytes := rawPixelBytes q.encoded }
  else Except.error "struct.error: argument out of range"

/-- The streaming pipeline's pack call (process_request_pipeline in
backend/routers/stream.py) hands pack_depth_payload a fresh copy of the
cached depth buffer, so the in-place clamp mutates the copy while the
cached buffer keeps its original contents.  The pair is (cached buffer
after the call, the copy after the call). -/
def pipeline_pack_buffers (cachedDepth : List ℚ) (zmin zmax : ℚ) : List ℚ × List ℚ :=
  (cachedDepth, (quantize_depth cachedDepth zmin zmax).bufferAfter)

/-! ### Basic lemmas about the codec model -/

instance {ε α : Type} [DecidableEq ε] [DecidableEq α] : DecidableEq (Except ε α) := fun x y =>
  match x, y with
  | .ok a, .ok b =>
    if h : a = b then isTrue (by rw [h]) else isFalse (by intro hc; injection hc; contradiction)
  | .error a, .error b =>
    if h : a = b then isTrue (by rw [h]) else isFalse (by intro hc; injection hc; contradiction)
  | .ok _, .error _ => isFalse (by intro hc; cases hc)
  | .error _, .ok _ => isFalse (by intro hc; cases hc)

lemma rintQ_cases (x : ℚ) : rintQ x = ⌊x⌋ ∨ rintQ x = ⌊x⌋ + 1 := by
  unfold rintQ; split_ifs <;> simp

lemma fract_bounds (x : ℚ) : 0 ≤ x - (⌊x⌋ : ℚ) ∧ x - (⌊x⌋ : ℚ) < 1 :=
  ⟨sub_nonneg.2 (Int.floor_le x), by have := Int.lt_floor_add_one x; linarith⟩

lemma abs_rintQ_sub (x : ℚ) : |(rintQ x : ℚ) - x| ≤ 1/2 := by
  obtain ⟨h0, h1⟩ := fract_bounds x
  unfold rintQ
  split_ifs with ha hb hc <;>
    [skip; skip; skip; skip] <;> rw [abs_sub_le_iff] <;> constructor <;>
    push_cast <;> linarith

lemma rintQ_nonneg {x : ℚ} (hx : 0 ≤ x) : 0 ≤ rintQ x := by
  have hf : (0 : ℤ) ≤ ⌊x⌋ := Int.floor_nonneg.2 hx
  rcases rintQ_cases x with h | h <;> omega

lemma rintQ_le_intCast {x : ℚ} {n : ℤ} (hx : x ≤ (n : ℚ)) : rintQ x ≤ n := by
  have hfn : ⌊x⌋ ≤ n := by
    have := Int.floor_le_floor hx
    simpa using this
  rcases lt_or_eq_of_le hfn with h | h
  · rcases rintQ_cases x with hc | hc <;> omega
  · have hx2 : x - (⌊x⌋ : ℚ) ≤ 0 := by
      rw [h]; linarith
    have : rintQ x = ⌊x⌋ := by
      unfold rintQ
      rw [if_pos (by linarith : x - (⌊x⌋ : ℚ) < 1/2)]
    omega

lemma toU16_lt (z : ℤ) : toU16 z < 65536 := by
  unfold toU16
  have h := Int.emod_lt_of_pos z (by norm_num : (0:ℤ) < 65536)
  omega

lemma toU16_of_range {z : ℤ} (h0 : 0 ≤ z) (h1 : z < 65536) : (toU16 z : ℤ) = z := by
  unfold toU16
  rw [Int.emod_eq_of_lt h0 h1]
  exact Int.toNat_of_nonneg h0

lemma readU16LE_rawPixelBytes (l : List ℕ) (h : ∀ n ∈ l, n < 65536) :
    readU16LE (rawPixelBytes l) = l := by
  induction l with
  | nil => rfl
  | cons n rest ih =>
    have hn : n < 65536 := h n (List.mem_cons_self n rest)
    have hrest : ∀ m ∈ rest, m < 65536 := fun m hm => h m (List.mem_cons_of_mem n hm)
    have : rawPixelBytes (n :: rest) = n % 256 :: n / 256 % 256 :: rawPixelBytes rest := by
      simp [rawPixelBytes, u16le]
    rw [this, readU16LE, ih hrest]
    congr 1
    omega

lemma clampQ_le {zmin zmax x : ℚ} : clampQ zmin zmax x ≤ zmax := min_le_right _ _

lemma le_clampQ {zmin zmax x : ℚ} (h : zmin ≤ zmax) : zmin ≤ clampQ zmin zmax x :=
  le_min (le_max_right _ _) h

lemma adjustZmax_of_lt {zmin zmax : ℚ} (hz : zmin < zmax) : adjustZmax zmin zmax = zmax := by
  unfold adjustZmax
  rw [if_neg (not_le.2 hz)]

lemma getD_map_of_lt {α β : Type} (f : α → β) (l : List α) (i : ℕ) (hi : i < l.length)
    (d0 : β) (d1 : α) : (l.map f).getD i d0 = f (l.getD i d1) := by
  rw [List.getD_eq_getElem _ _ (by simpa using hi), List.getD_eq_getElem _ _ hi,
    List.getElem_map]

/-- The elementwise quantize/dequantize bound for a valid range: the
reconstructed value scale * e + zmin stays inside the range, and is within
scale of the clamped input. -/
lemma dequant_bounds {zmin zmax d : ℚ} (hz : zmin < zmax) :
    zmin ≤ (zmax - zmin) / 65535 *
        (toU16 (rintQ ((clampQ zmin zmax d - zmin) / ((zmax - zmin) / 65535))) : ℚ) + zmin ∧
    (zmax - zmin) / 65535 *
        (toU16 (rintQ ((clampQ zmin zmax d - zmin) / ((zmax - zmin) / 65535))) : ℚ) + zmin ≤
      zmax ∧
    |(zmax - zmin) / 65535 *
          (toU16 (rintQ ((clampQ zmin zmax d - zmin) / ((zmax - zmin) / 65535))) : ℚ) + zmin -
        clampQ zmin zmax d| ≤ (zmax - zmin) / 65535 := by
  set scale : ℚ := (zmax - zmin) / 65535 with hscale
  have hspos : 0 < scale := div_pos (by linarith) (by norm_num)
  set c : ℚ := clampQ zmin zmax d with hcdef
  have hc1 : zmin ≤ c := le_clampQ hz.le
  have hc2 : c ≤ zmax := clampQ_le
  set u : ℚ := (c - zmin) / scale with hu
  have hscale65535 : (65535 : ℚ) * scale = zmax - zmin := by
    rw [hscale]; field_simp
  have hu0 : 0 ≤ u := div_nonneg (by linarith) hspos.le
  have hu1 : u ≤ 65535 := by
    rw [hu, div_le_iff₀ hspos]
    linarith
  have he0 : 0 ≤ rintQ u := rintQ_nonneg hu0
  have he1 : rintQ u ≤ 65535 := rintQ_le_intCast (by exact_mod_cast hu1)
  have heq : ((toU16 (rintQ u) : ℕ) : ℚ) = ((rintQ u : ℤ) : ℚ) := by
    exact_mod_cast congrArg (fun z : ℤ => (z : ℚ)) (toU16_of_range he0 (by omega))
  have habs : |(rintQ u : ℚ) - u| ≤ 1/2 := abs_rintQ_sub u
  have hcu : c = zmin + scale * u := by
    rw [hu]
    field_simp
  have heQ0 : (0 : ℚ) ≤ (rintQ u : ℚ) := by exact_mod_cast he0
  have heQ1 : (rintQ u : ℚ) ≤ 65535 := by exact_mod_cast he1
  rw [heq]
  refine ⟨by nlinarith, by nlinarith, ?_⟩
  have : scale * (rintQ u : ℚ) + zmin - c = scale * ((rintQ u : ℚ) - u) := by
    rw [hcu]; ring
  rw [this, abs_mul, abs_of_pos hspos]
  nlinarith [abs_nonneg ((rintQ u : ℚ) - u)]

lemma bias_scale_sum (zmin z : ℚ) : zmin + 65535 * ((z - zmin) / 65535) = z := by
  field_simp

/-- Evaluation of pack_depth_payload on the concrete roundtrip witness
input (a 1-by-2 array, range (0, 1)). -/
lemma pack_eval_simple : pack_depth_payload ⟨1, 2, [0, 3]⟩ 0 0 1 =
    Except.ok ⟨"VDZ1", 1, 1, 0, 2, 1, 1/65535, 0, 1, [0, 0, 255, 255]⟩ := by
  norm_num [pack_depth_payload, quantize_depth, adjustZmax, clampQ, rintQ, toU16, truncQ,
    u32OK, rawPixelBytes, u16le]
  omega

/-- Evaluation of pack_depth_payload on a degenerate-range input
(z_min = 5, z_max = 3). -/
lemma pack_eval_degenerate : pack_depth_payload ⟨1, 1, [4]⟩ 0 5 3 =
    Except.ok ⟨"VDZ1", 1, 1, 0, 1, 1, 1/65535000, 5, 3, [0, 0]⟩ := by
  norm_num [pack_depth_payload, quantize_depth, adjustZmax, clampQ, rintQ, toU16, truncQ,
    u32OK, rawPixelBytes, u16le]

/-- C2: for every depth array with finite entries and every valid pair
z_min < z_max, packing with pack_depth_payload and then dequantizing the
pixel payload (read little-endian u16 pixels x, compute scale * x + bias
with the header's scale and bias) yields elementwise values inside
[z_min, z_max] that differ from the clamped input by at most scale, where
scale = (z_max - z_min) / 65535 and bias = z_min. -/
theorem pack_dequantize_roundtrip (depth : DepthArray) (ts zmin zmax : ℚ)
    (p : DepthPayload) (hz : zmin < zmax)
    (hp : pack_depth_payload depth ts zmin zmax = Except.ok p) :
    p.scale = (zmax - zmin) / 65535 ∧ p.bias = zmin ∧
    (readU16LE p.pixelBytes).length = depth.data.length ∧
    ∀ i, i < depth.data.length →
      zmin ≤ p.scale * ((readU16LE p.pixelBytes).getD i 0 : ℚ) + p.bias ∧
      p.scale * ((readU16LE p.pixelBytes).getD i 0 : ℚ) + p.bias ≤ zmax ∧
      |p.scale * ((readU16LE p.pixelBytes).getD i 0 : ℚ) + p.bias -
          clampQ zmin zmax (depth.data.getD i 0)| ≤ p.scale := by
  simp only [pack_depth_payload] at hp
  split_ifs at hp with hok
  simp only [Except.ok.injEq] at hp
  subst hp
  simp only [quantize_depth, adjustZmax_of_lt hz]
  have hread : readU16LE (rawPixelBytes
      ((depth.data.map (clampQ zmin zmax)).map
        (fun d => toU16 (rintQ ((d - zmin) / ((zmax - zmin) / 65535)))))) =
      (depth.data.map (clampQ zmin zmax)).map
        (fun d => toU16 (rintQ ((d - zmin) / ((zmax - zmin) / 65535)))) := by
    apply readU16LE_rawPixelBytes
    intro n hn
    simp only [List.mem_map] at hn
    obtain ⟨a, _, rfl⟩ := hn
    exact toU16_lt _
  rw [hread]
  refine ⟨by trivial, by trivial, by simp, ?_⟩
  intro i hi
  rw [getD_map_of_lt (fun d => toU16 (rintQ ((d - zmin) / ((zmax - zmin) / 65535))))
      (depth.data.map (clampQ zmin zmax)) i (by simpa using hi) 0 0,
    getD_map_of_lt (clampQ zmin zmax) depth.data i hi 0 0]
  exact dequant_bounds hz

/-- Closed witness for pack_dequantize_roundtrip at a concrete 1-by-2
array with range (0, 1). -/
theorem pack_dequantize_roundtrip_witness :
    (0 : ℚ) < 1 ∧
    pack_depth_payload ⟨1, 2, [0, 3]⟩ 0 0 1 =
      Except.ok ⟨"VDZ1", 1, 1, 0, 2, 1, 1/65535, 0, 1, [0, 0, 255, 255]⟩ ∧
    ((⟨"VDZ1", 1, 1, 0, 2, 1, 1/65535, 0, 1, [0, 0, 255, 255]⟩ : DepthPayload).scale =
        ((1 : ℚ) - 0) / 65535 ∧
      (⟨"VDZ1", 1, 1, 0, 2, 1, 1/65535, 0, 1, [0, 0, 255, 255]⟩ : DepthPayload).bias = 0 ∧
      (readU16LE (⟨"VDZ1", 1, 1, 0, 2, 1, 1/65535, 0, 1,
          [0, 0, 255, 255]⟩ : DepthPayload).pixelBytes).length =
        (⟨1, 2, [0, 3]⟩ : DepthArray).data.length ∧
      ∀ i, i < (⟨1, 2, [0, 3]⟩ : DepthArray).data.length →
        (0 : ℚ) ≤ (⟨"VDZ1", 1, 1, 0, 2, 1, 1/65535, 0, 1,
            [0, 0, 255, 255]⟩ : DepthPayload).scale *
            ((readU16LE (⟨"VDZ1", 1, 1, 0, 2, 1, 1/65535, 0, 1,
              [0, 0, 255, 255]⟩ : DepthPayload).pixelBytes).getD i 0 : ℚ) +
            (⟨"VDZ1", 1, 1, 0, 2, 1, 1/65535, 0, 1, [0, 0, 255, 255]⟩ : DepthPayload).bias ∧
          (⟨"VDZ1", 1, 1, 0, 2, 1, 1/65535, 0, 1, [0, 0, 255, 255]⟩ : DepthPayload).scale *
            ((readU16LE (⟨"VDZ1", 1, 1, 0, 2, 1, 1/65535, 0, 1,
              [0, 0, 255, 255]⟩ : DepthPayload).pixelBytes).getD i 0 : ℚ) +
            (⟨"VDZ1", 1, 1, 0, 2, 1, 1/65535, 0, 1,
              [0, 0, 255, 255]⟩ : DepthPayload).bias ≤ 1 ∧
          |(⟨"VDZ1", 1, 1, 0, 2, 1, 1/65535, 0, 1, [0, 0, 255, 255]⟩ : DepthPayload).scale *
              ((readU16LE (⟨"VDZ1", 1, 1, 0, 2, 1, 1/65535, 0, 1,
                [0, 0, 255, 255]⟩ : DepthPayload).pixelBytes).getD i 0 : ℚ) +
              (⟨"VDZ1", 1, 1, 0, 2, 1, 1/65535, 0, 1,
                [0, 0, 255, 255]⟩ : DepthPayload).bias -
              clampQ 0 1 ((⟨1, 2, [0, 3]⟩ : DepthArray).data.getD i 0)| ≤
            (⟨"VDZ1", 1, 1, 0, 2, 1, 1/65535, 0, 1,
              [0, 0, 255, 255]⟩ : DepthPayload).scale) :=
  ⟨by norm_num, pack_eval_simple,
    pack_dequantize_roundtrip ⟨1, 2, [0, 3]⟩ 0 0 1
      ⟨"VDZ1", 1, 1, 0, 2, 1, 1/65535, 0, 1, [0, 0, 255, 255]⟩ (by norm_num) pack_eval_simple⟩

/-- C7: the claim says pack_depth_payload never raises for finite input,
including timestamp_ms at or above 2^32 and negative timestamps.  The
code passes int(timestamp_ms) unmasked to struct.pack's u32 slot, which
raises struct.error outside [0, 2^32): packing fails at
timestamp_ms = 2^32 and at timestamp_ms = -1, while an in-range timestamp
succeeds. -/
theorem pack_timestamp_struct_error :
    pack_depth_payload ⟨1, 1, [0]⟩ 4294967296 0 1 =
      Except.error "struct.error: argument out of range" ∧
    pack_depth_payload ⟨1, 1, [0]⟩ (-1) 0 1 =
      Except.error "struct.error: argument out of range" ∧
    (pack_depth_payload ⟨1, 1, [0]⟩ 5 0 1).toOption.isSome = true := by
  have hc : (⌈(-1 : ℚ)⌉ : ℤ) = -1 := by
    rw [show ((-1 : ℚ)) = ((-1 : ℤ) : ℚ) by norm_num, Int.ceil_intCast]
  refine ⟨?_, ?_, ?_⟩
  · norm_num [pack_depth_payload, truncQ, u32OK]
  · norm_num [pack_depth_payload, truncQ, u32OK, hc]
  · norm_num [pack_depth_payload, truncQ, u32OK, Except.toOption]

/-- C9: quantize_depth clamps its argument buffer in place (np.clip with
out=depth), so after the call the caller's array holds the clamp of the
original values to [z_min, adjusted z_max]; the buffer is not left
unchanged in general, and the streaming pipeline therefore passes a copy,
leaving the cached buffer untouched. -/
theorem quantize_depth_mutates_buffer :
    (∀ (depth : List ℚ) (zmin zmax : ℚ),
      (quantize_depth depth zmin zmax).bufferAfter =
        depth.map (clampQ zmin (adjustZmax zmin zmax))) ∧
    (quantize_depth [10] 0 1).bufferAfter ≠ [10] ∧
    (∀ (cachedDepth : List ℚ) (zmin zmax : ℚ),
      (pipeline_pack_buffers cachedDepth zmin zmax).1 = cachedDepth) := by
  refine ⟨fun depth zmin zmax => rfl, by decide, fun c zmin zmax => rfl⟩

/-- C10: the packed header's z_max field always carries the original
z_max argument while scale comes from the adjusted bound, so in the
degenerate case z_max ≤ z_min the maximum reconstructable depth
bias + 65535 * scale equals z_min + 1e-3 and differs from the header's
z_max; for a valid pair they agree, and for z_max strictly below z_min
the header's z_max is smaller than its bias. -/
theorem pack_header_zmax_mismatch (depth : DepthArray) (ts zmin zmax : ℚ)
    (p : DepthPayload) (hp : pack_depth_payload depth ts zmin zmax = Except.ok p) :
    p.z_max = zmax ∧
    (zmax ≤ zmin → p.bias + 65535 * p.scale = zmin + 1/1000 ∧
      p.bias + 65535 * p.scale ≠ p.z_max) ∧
    (zmin < zmax → p.bias + 65535 * p.scale = p.z_max) ∧
    (zmax < zmin → p.z_max < p.bias) := by
  simp only [pack_depth_payload] at hp
  split_ifs at hp with hok
  simp only [Except.ok.injEq] at hp
  subst hp
  simp only [quantize_depth]
  refine ⟨by trivial, fun hle => ?_, fun hlt => ?_, fun hlt => ?_⟩
  · rw [show adjustZmax zmin zmax = zmin + 1/1000 by unfold adjustZmax; rw [if_pos hle],
      bias_scale_sum]
    exact ⟨rfl, fun hc => by linarith⟩
  · rw [adjustZmax_of_lt hlt, bias_scale_sum]
  · exact hlt

/-- Closed witness for pack_header_zmax_mismatch at the degenerate input
z_min = 5, z_max = 3. -/
theorem pack_header_zmax_mismatch_witness :
    pack_depth_payload ⟨1, 1, [4]⟩ 0 5 3 =
      Except.ok ⟨"VDZ1", 1, 1, 0, 1, 1, 1/65535000, 5, 3, [0, 0]⟩ ∧
    ((⟨"VDZ1", 1, 1, 0, 1, 1, 1/65535000, 5, 3, [0, 0]⟩ : DepthPayload).z_max = 3 ∧
      ((3 : ℚ) ≤ 5 →
        (⟨"VDZ1", 1, 1, 0, 1, 1, 1/65535000, 5, 3, [0, 0]⟩ : DepthPayload).bias +
            65535 * (⟨"VDZ1", 1, 1, 0, 1, 1, 1/65535000, 5, 3,
              [0, 0]⟩ : DepthPayload).scale = 5 + 1/1000 ∧
          (⟨"VDZ1", 1, 1, 0, 1, 1, 1/65535000, 5, 3, [0, 0]⟩ : DepthPayload).bias +
              65535 * (⟨"VDZ1", 1, 1, 0, 1, 1, 1/65535000, 5, 3,
                [0, 0]⟩ : DepthPayload).scale ≠
            (⟨"VDZ1", 1, 1, 0, 1, 1, 1/65535000, 5, 3, [0, 0]⟩ : DepthPayload).z_max) ∧
      ((5 : ℚ) < 3 →
        (⟨"VDZ1", 1, 1, 0, 1, 1, 1/65535000, 5, 3, [0, 0]⟩ : DepthPayload).bias +
            65535 * (⟨"VDZ1", 1, 1, 0, 1, 1, 1/65535000, 5, 3,
              [0, 0]⟩ : DepthPayload).scale =
          (⟨"VDZ1", 1, 1, 0, 1, 1, 1/65535000, 5, 3, [0, 0]⟩ : DepthPayload).z_max) ∧
      ((3 : ℚ) < 5 →
        (⟨"VDZ1", 1, 1, 0, 1, 1, 1/65535000, 5, 3, [0, 0]⟩ : DepthPayload).z_max <
          (⟨"VDZ1", 1, 1, 0, 1, 1, 1/65535000, 5, 3, [0, 0]⟩ : DepthPayload).bias)) :=
  ⟨pack_eval_degenerate,
    pack_header_zmax_mismatch ⟨1, 1, [4]⟩ 0 5 3
      ⟨"VDZ1", 1, 1, 0, 1, 1, 1/65535000, 5, 3, [0, 0]⟩ pack_eval_degenerate⟩

/-! ## Dropping queue (backend/utils/queues.py)

put_nowait is a plain synchronous method (no await), so it is modelled as
a total function on the queue state: never blocking is inherent to the
embedding.  The deque holds its oldest element at the head. -/

structure DroppingQueue (α : Type) where
  maxsize : ℤ
  queue : List α
  dropped : ℕ

/-- put_nowait from DroppingQueue: when maxsize > 0 and the queue is at
or over capacity, pop and discard the oldest element and count a drop,
then append the new item. -/
def put_nowait {α : Type} (q : DroppingQueue α) (x : α) : DroppingQueue α :=
  if 0 < q.maxsize ∧ q.maxsize ≤ (q.queue.length : ℤ) then
    { q with queue := q.queue.tail ++ [x], dropped := q.dropped + 1 }
  else
    { q with queue := q.queue ++ [x] }

/-- A sequence of put_nowait calls with no concurrent consumer. -/
def putAll {α : Type} (q : DroppingQueue α) (xs : List α) : DroppingQueue α :=
  xs.foldl put_nowait q

lemma full_step_drop {α : Type} (h x : α) (t rest : List α) (K : ℕ)
    (hqK : t.length + 1 = K) :
    ((t ++ [x]) ++ rest).drop ((t ++ [x]).length + rest.length - K) =
      ((h :: t) ++ x :: rest).drop ((h :: t).length + (x :: rest).length - K) := by
  have e1 : (t ++ [x]).length + rest.length - K = rest.length := by simp; omega
  have e2 : (h :: t).length + (x :: rest).length - K = rest.length + 1 := by simp; omega
  rw [e1, e2, List.append_assoc, List.singleton_append, List.cons_append,
    List.drop_succ_cons]

lemma putAll_spec {α : Type} (K : ℕ) (hK : 0 < K) (xs : List α) (q : DroppingQueue α)
    (hmax : q.maxsize = (K : ℤ)) (hlen : q.queue.length ≤ K) :
    (putAll q xs).maxsize = (K : ℤ) ∧
    (putAll q xs).queue = (q.queue ++ xs).drop (q.queue.length + xs.length - K) ∧
    (putAll q xs).dropped = q.dropped + (q.queue.length + xs.length - K) := by
  induction xs generalizing q with
  | nil =>
    refine ⟨hmax, ?_, ?_⟩ <;> simp [putAll]
    · rw [Nat.sub_eq_zero_of_le (by simpa using hlen)]
      simp
    · omega
  | cons x rest ih =>
    have hstep : putAll q (x :: rest) = putAll (put_nowait q x) rest := rfl
    by_cases hfull : K ≤ q.queue.length
    · have hqK : q.queue.length = K := le_antisymm hlen hfull
      have hput : put_nowait q x =
          { q with queue := q.queue.tail ++ [x], dropped := q.dropped + 1 } := by
        unfold put_nowait
        rw [if_pos]
        rw [hmax]
        exact ⟨by exact_mod_cast hK, by exact_mod_cast hfull⟩
      obtain ⟨h, t, hq⟩ : ∃ h t, q.queue = h :: t := by
        cases hq : q.queue with
        | nil => rw [hq] at hqK; simp at hqK; omega
        | cons h t => exact ⟨h, t, rfl⟩
      have hqK2 : t.length + 1 = K := by
        rw [hq] at hqK; simpa using hqK
      have hq1q : (put_nowait q x).queue = t ++ [x] := by
        rw [hput]; simp [hq]
      have hq1d : (put_nowait q x).dropped = q.dropped + 1 := by rw [hput]
      have hq1m : (put_nowait q x).maxsize = (K : ℤ) := by rw [hput]; exact hmax
      obtain ⟨ihm, ihq, ihd⟩ := ih (put_nowait q x) hq1m (by rw [hq1q]; simp; omega)
      rw [hq1q] at ihq
      rw [hq1q, hq1d] at ihd
      refine ⟨ihm, ?_, ?_⟩
      · rw [hstep, ihq, hq]
        exact full_step_drop h x t rest K hqK2
      · rw [hstep, ihd, hq]
        simp only [List.length_append, List.length_cons, List.length_nil]
        omega
    · push_neg at hfull
      have hput : put_nowait q x = { q with queue := q.queue ++ [x] } := by
        unfold put_nowait
        rw [if_neg]
        rw [hmax]
        intro hc
        exact absurd (by exact_mod_cast hc.2) (not_le.2 hfull)
      have hq1q : (put_nowait q x).queue = q.queue ++ [x] := by rw [hput]
      have hq1d : (put_nowait q x).dropped = q.dropped := by rw [hput]
      have hq1m : (put_nowait q x).maxsize = (K : ℤ) := by rw [hput]; exact hmax
      obtain ⟨ihm, ihq, ihd⟩ := ih (put_nowait q x) hq1m (by rw [hq1q]; simp; omega)
      rw [hq1q] at ihq
      rw [hq1q, hq1d] at ihd
      refine ⟨ihm, ?_, ?_⟩
      · rw [hstep, ihq]
        rw [List.append_assoc, List.singleton_append]
        congr 1
        simp only [List.length_append, List.length_cons, List.length_nil]
        omega
      · rw [hstep, ihd]
        simp only [List.length_append, List.length_cons, List.length_nil]
        omega

/-- C3: pushing n > K items into a dropping queue of capacity K > 0 with
no concurrent consumer never blocks (put_nowait is a total synchronous
function), reports exactly n - K items dropped, and leaves the queue
holding exactly the last K inserted items in insertion order. -/
theorem dropping_queue_overflow {α : Type} (K : ℕ) (xs : List α) (hK : 0 < K)
    (hn : K < xs.length) :
    (putAll ⟨(K : ℤ), [], 0⟩ xs).dropped = xs.length - K ∧
    (putAll ⟨(K : ℤ), [], 0⟩ xs).queue = xs.drop (xs.length - K) ∧
    (putAll ⟨(K : ℤ), [], 0⟩ xs).queue.length = K := by
  obtain ⟨hm, hq, hd⟩ := putAll_spec K hK xs ⟨(K : ℤ), [], 0⟩ rfl (by simp)
  simp only [List.nil_append, List.length_nil, Nat.zero_add, Nat.zero_sub] at hq hd
  refine ⟨by simpa using hd, by simpa using hq, ?_⟩
  rw [hq]
  simp
  omega

/-- Closed witness for dropping_queue_overflow: capacity 2, three puts. -/
theorem dropping_queue_overflow_witness :
    0 < 2 ∧ 2 < ([10, 20, 30] : List ℕ).length ∧
    ((putAll ⟨(2 : ℤ), [], 0⟩ [10, 20, 30]).dropped = [10, 20, 30].length - 2 ∧
      (putAll ⟨(2 : ℤ), [], 0⟩ [10, 20, 30]).queue = ([10, 20, 30] : List ℕ).drop
        ([10, 20, 30].length - 2) ∧
      (putAll ⟨(2 : ℤ), [], 0⟩ ([10, 20, 30] : List ℕ)).queue.length = 2) :=
  ⟨by decide, by decide, dropping_queue_overflow 2 [10, 20, 30] (by decide) (by decide)⟩

/-! ## Depth cache (backend/video/session.py)

The per-session depth buffer is a deque with maxlen = video_cache_size;
it is modelled as a list with the oldest frame at the head.  The buffer
lock serializes operations, so a run of the cache is a fold over a list
of operations. -/

/-- A cached depth frame (dataclass DepthFrame in session.py). -/
structure DepthFrame where
  timestamp_ms : ℚ
  depth : List ℚ
  z_min : ℚ
  z_max : ℚ
  deriving Repr, DecidableEq

/-- Placeholder frame used only as the default of List.getD at indices
that are proved in range. -/
def defaultFrame : DepthFrame := ⟨0, [], 0, 0⟩

/-- store_depth_frame: append to the deque; the maxlen bound discards
from the front when the deque would exceed the capacity C. -/
def store_depth_frame (C : ℕ) (buf : List DepthFrame) (f : DepthFrame) : List DepthFrame :=
  (buf ++ [f]).drop ((buf ++ [f]).length - C)

/-- The scan loop of get_cached_depth: indices n-1, n-2, ..., 0 (newest
to oldest), returning the first index whose timestamp is within
tolerance of the requested time. -/
def hitScan (t tol : ℚ) (buf : List DepthFrame) : ℕ → Option ℕ
  | 0 => none
  | i + 1 =>
    if |(buf.getD i defaultFrame).timestamp_ms - t| ≤ tol then some i
    else hitScan t tol buf i

/-- get_cached_depth: scan newest to oldest; on a hit at index i return
the cached frame and, when drop_on_hit, pop the i+1 oldest entries
(everything at index at most i). -/
def get_cached_depth (t tol : ℚ) (dropOnHit : Bool) (buf : List DepthFrame) :
    Option DepthFrame × List DepthFrame :=
  match hitScan t tol buf buf.length with
  | some i => (some (buf.getD i defaultFrame), if dropOnHit then buf.drop (i + 1) else buf)
  | none => (none, buf)

/-- An operation on the session's depth buffer. -/
inductive CacheOp where
  | store (f : DepthFrame)
  | get (t tol : ℚ) (dropOnHit : Bool)

/-- Effect of one operation on the buffer. -/
def applyCacheOp (C : ℕ) (buf : List DepthFrame) : CacheOp → List DepthFrame
  | .store f => store_depth_frame C buf f
  | .get t tol d => (get_cached_depth t tol d buf).2

/-- A serialized run of buffer operations. -/
def applyCacheOps (C : ℕ) (buf : List DepthFrame) (ops : List CacheOp) : List DepthFrame :=
  ops.foldl (applyCacheOp C) buf

lemma store_depth_frame_length_le (C : ℕ) (buf : List DepthFrame) (f : DepthFrame) :
    (store_depth_frame C buf f).length ≤ C ∨
      (store_depth_frame C buf f).length ≤ buf.length := by
  unfold store_depth_frame
  rw [List.length_drop]
  simp only [List.length_append, List.length_cons, List.length_nil]
  omega

lemma hitScan_some (t tol : ℚ) (buf : List DepthFrame) (n : ℕ) (i : ℕ)
    (h : hitScan t tol buf n = some i) :
    i < n ∧ |(buf.getD i defaultFrame).timestamp_ms - t| ≤ tol ∧
      ∀ j, i < j → j < n → tol < |(buf.getD j defaultFrame).timestamp_ms - t| := by
  induction n with
  | zero => simp [hitScan] at h
  | succ m ih =>
    unfold hitScan at h
    split_ifs at h with hhit
    · obtain rfl : m = i := by injection h
      exact ⟨Nat.lt_succ_self _, hhit, fun j hj1 hj2 => by omega⟩
    · obtain ⟨h1, h2, h3⟩ := ih h
      refine ⟨by omega, h2, fun j hj1 hj2 => ?_⟩
      rcases Nat.lt_or_ge j m with hjm | hjm
      · exact h3 j hj1 hjm
      · obtain rfl : j = m := by omega
        exact lt_of_not_le hhit

/-- C4: the depth cache never grows beyond its capacity C under any
serialized sequence of store_depth_frame and get_cached_depth
operations; get_cached_depth scans newest to oldest and returns the
first frame within tolerance of the requested time; and a hit with
drop_on_hit at index i removes every frame at index at most i. -/
theorem depth_cache_spec :
    (∀ (C : ℕ) (ops : List CacheOp) (buf : List DepthFrame), buf.length ≤ C →
      (applyCacheOps C buf ops).length ≤ C) ∧
    (∀ (t tol : ℚ) (d : Bool) (buf buf2 : List DepthFrame) (f : DepthFrame),
      get_cached_depth t tol d buf = (some f, buf2) →
      ∃ i, i < buf.length ∧ f = buf.getD i defaultFrame ∧
        |f.timestamp_ms - t| ≤ tol ∧
        (∀ j, i < j → j < buf.length →
          tol < |(buf.getD j defaultFrame).timestamp_ms - t|) ∧
        (d = true → buf2 = buf.drop (i + 1))) := by
  constructor
  · intro C ops
    induction ops with
    | nil => intro buf h; simpa [applyCacheOps] using h
    | cons op rest ih =>
      intro buf h
      have hstep : applyCacheOps C buf (op :: rest) =
          applyCacheOps C (applyCacheOp C buf op) rest := rfl
      rw [hstep]
      apply ih
      cases op with
      | store f =>
        rcases store_depth_frame_length_le C buf f with h1 | h1
        · exact h1
        · exact le_trans h1 h
      | get t tol d =>
        simp only [applyCacheOp]
        unfold get_cached_depth
        rcases hscan : hitScan t tol buf buf.length with _ | i
        · simpa using h
        · cases d
          · simpa using h
          · simp only
            calc (buf.drop (i + 1)).length ≤ buf.length := by
                  rw [List.length_drop]; omega
              _ ≤ C := h
  · intro t tol d buf buf2 f hget
    unfold get_cached_depth at hget
    rcases hscan : hitScan t tol buf buf.length with _ | i <;> rw [hscan] at hget
    · simp at hget
    · simp only [Prod.mk.injEq, Option.some.injEq] at hget
      obtain ⟨rfl, hbuf2⟩ := hget
      obtain ⟨h1, h2, h3⟩ := hitScan_some t tol buf buf.length i hscan
      refine ⟨i, h1, rfl, h2, h3, fun hd => ?_⟩
      rw [hd] at hbuf2
      simpa using hbuf2.symm

/-- Closed witness for depth_cache_spec: a capacity-2 cache holding two
frames, then a drop-on-hit lookup that matches the newest frame. -/
theorem depth_cache_spec_witness :
    (([] : List DepthFrame).length ≤ 2 ∧
      (applyCacheOps 2 [] [CacheOp.store ⟨10, [1], 0, 1⟩, CacheOp.store ⟨50, [2], 0, 1⟩,
        CacheOp.store ⟨90, [3], 0, 1⟩]).length ≤ 2) ∧
    (get_cached_depth 95 10 true [⟨10, [1], 0, 1⟩, ⟨90, [3], 0, 1⟩] =
        (some ⟨90, [3], 0, 1⟩, []) ∧
      ∃ i, i < ([⟨10, [1], 0, 1⟩, ⟨90, [3], 0, 1⟩] : List DepthFrame).length ∧
        (⟨90, [3], 0, 1⟩ : DepthFrame) =
          ([⟨10, [1], 0, 1⟩, ⟨90, [3], 0, 1⟩] : List DepthFrame).getD i defaultFrame ∧
        |(⟨90, [3], 0, 1⟩ : DepthFrame).timestamp_ms - 95| ≤ 10 ∧
        (∀ j, i < j → j < ([⟨10, [1], 0, 1⟩, ⟨90, [3], 0, 1⟩] : List DepthFrame).length →
          (10 : ℚ) < |(([⟨10, [1], 0, 1⟩, ⟨90, [3], 0, 1⟩] :
            List DepthFrame).getD j defaultFrame).timestamp_ms - 95|) ∧
        (true = true →
          ([] : List DepthFrame) =
            ([⟨10, [1], 0, 1⟩, ⟨90, [3], 0, 1⟩] : List DepthFrame).drop (i + 1))) :=
  ⟨⟨by decide, depth_cache_spec.1 2 _ [] (by decide)⟩,
    by norm_num [get_cached_depth, hitScan, defaultFrame],
    depth_cache_spec.2 95 10 true [⟨10, [1], 0, 1⟩, ⟨90, [3], 0, 1⟩] [] ⟨90, [3], 0, 1⟩
      (by norm_num [get_cached_depth, hitScan, defaultFrame])⟩

/-! ## Rolling telemetry stats (VideoSession.update_telemetry)

Telemetry metrics arrive as a Python dict; the recognized keys are
modelled as optional fields.  Each key in the update loop touches a
distinct rolling stat, so the dict iteration order is immaterial and the
loop is modelled as a fixed sequence of field updates; the final
total_s-driven fps update runs after the loop, exactly as in the code. -/

structure RollingStats where
  depth_fps : ℚ
  latency_ms : ℚ
  infer_avg_s : ℚ
  queue_avg_s : ℚ
  ws_send_avg_s : ℚ
  decode_avg_s : ℚ
  drop_count : ℚ
  deriving Repr, DecidableEq

structure TelemetrySample where
  dropped : Option ℚ
  infer_s : Option ℚ
  queue_wait_s : Option ℚ
  ws_send_s : Option ℚ
  decode_s : Option ℚ
  latency_ms : Option ℚ
  depth_fps : Option ℚ
  total_s : Option ℚ
  deriving Repr, DecidableEq

/-- The EMA step with alpha = 0.1: a zero stat adopts the sample
outright, otherwise stat becomes 0.1 * sample + 0.9 * stat. -/
def ema (cur v : ℚ) : ℚ := if cur = 0 then v else (1/10) * v + (9/10) * cur

/-- Apply the EMA step when the key is present in the metrics dict. -/
def emaOpt (cur : ℚ) : Option ℚ → ℚ
  | none => cur
  | some v => ema cur v

/-- update_telemetry from VideoSession: accumulate dropped into
drop_count, EMA-update each rolling stat whose key is present, then feed
1 / total_s into depth_fps when total_s is present and positive. -/
def update_telemetry (m : TelemetrySample) (rs : RollingStats) : RollingStats :=
  let rs1 := match m.dropped with
    | none => rs
    | some v => { rs with drop_count := rs.drop_count + v }
  let rs2 := { rs1 with infer_avg_s := emaOpt rs1.infer_avg_s m.infer_s }
  let rs3 := { rs2 with queue_avg_s := emaOpt rs2.queue_avg_s m.queue_wait_s }
  let rs4 := { rs3 with ws_send_avg_s := emaOpt rs3.ws_send_avg_s m.ws_send_s }
  let rs5 := { rs4 with decode_avg_s := emaOpt rs4.decode_avg_s m.decode_s }
  let rs6 := { rs5 with latency_ms := emaOpt rs5.latency_ms m.latency_ms }
  let rs7 := { rs6 with depth_fps := emaOpt rs6.depth_fps m.depth_fps }
  match m.total_s with
  | some v => if 0 < v then { rs7 with depth_fps := ema rs7.depth_fps (1 / v) } else rs7
  | none => rs7

lemma update_telemetry_eq (m : TelemetrySample) (rs : RollingStats) :
    update_telemetry m rs =
      { depth_fps :=
          match m.total_s with
          | some v =>
            if 0 < v then ema (emaOpt rs.depth_fps m.depth_fps) (1 / v)
            else emaOpt rs.depth_fps m.depth_fps
          | none => emaOpt rs.depth_fps m.depth_fps
        latency_ms := emaOpt rs.latency_ms m.latency_ms
        infer_avg_s := emaOpt rs.infer_avg_s m.infer_s
        queue_avg_s := emaOpt rs.queue_avg_s m.queue_wait_s
        ws_send_avg_s := emaOpt rs.ws_send_avg_s m.ws_send_s
        decode_avg_s := emaOpt rs.decode_avg_s m.decode_s
        drop_count := rs.drop_count + m.dropped.getD 0 } := by
  cases hd : m.dropped <;> cases ht : m.total_s <;>
    simp only [update_telemetry, hd, ht, Option.getD_none, Option.getD_some] <;>
    (try split_ifs) <;> simp

/-- C8 (amended): each rolling-stat key present in a telemetry sample is
folded in with the EMA rule stat := stat == 0 ? sample :
0.1 * sample + 0.9 * stat; depth_fps is additionally fed 1 / total_s
when total_s is present and positive (a non-positive total_s leaves
depth_fps at its loop value); and the dropped key accumulates additively
into drop_count, which is non-decreasing for non-negative dropped
samples. -/
theorem update_telemetry_ema_spec (m : TelemetrySample) (rs : RollingStats) :
    (update_telemetry m rs).infer_avg_s = emaOpt rs.infer_avg_s m.infer_s ∧
    (update_telemetry m rs).queue_avg_s = emaOpt rs.queue_avg_s m.queue_wait_s ∧
    (update_telemetry m rs).ws_send_avg_s = emaOpt rs.ws_send_avg_s m.ws_send_s ∧
    (update_telemetry m rs).decode_avg_s = emaOpt rs.decode_avg_s m.decode_s ∧
    (update_telemetry m rs).latency_ms = emaOpt rs.latency_ms m.latency_ms ∧
    (∀ v, m.total_s = some v → 0 < v →
      (update_telemetry m rs).depth_fps = ema (emaOpt rs.depth_fps m.depth_fps) (1 / v)) ∧
    (∀ v, m.total_s = some v → v ≤ 0 →
      (update_telemetry m rs).depth_fps = emaOpt rs.depth_fps m.depth_fps) ∧
    (m.total_s = none → (update_telemetry m rs).depth_fps = emaOpt rs.depth_fps m.depth_fps) ∧
    (update_telemetry m rs).drop_count = rs.drop_count + m.dropped.getD 0 ∧
    (0 ≤ m.dropped.getD 0 → rs.drop_count ≤ (update_telemetry m rs).drop_count) := by
  rw [update_telemetry_eq]
  refine ⟨rfl, rfl, rfl, rfl, rfl, ?_, ?_, ?_, rfl, ?_⟩
  · intro v hv hvpos
    simp only [hv]
    rw [if_pos hvpos]
  · intro v hv hvnp
    simp only [hv]
    rw [if_neg (not_lt.2 hvnp)]
  · intro hv
    simp only [hv]
  · intro hnn
    simp only
    linarith

/-- Closed witness for update_telemetry_ema_spec at a concrete sample
carrying dropped, infer_s and a positive total_s. -/
theorem update_telemetry_ema_spec_witness :
    (update_telemetry ⟨some 2, some 3, none, none, none, none, none, some 1⟩
        ⟨0, 0, 0, 0, 0, 0, 0⟩).infer_avg_s = emaOpt 0 (some 3) ∧
    (update_telemetry ⟨some 2, some 3, none, none, none, none, none, some 1⟩
        ⟨0, 0, 0, 0, 0, 0, 0⟩).queue_avg_s = emaOpt 0 none ∧
    (update_telemetry ⟨some 2, some 3, none, none, none, none, none, some 1⟩
        ⟨0, 0, 0, 0, 0, 0, 0⟩).ws_send_avg_s = emaOpt 0 none ∧
    (update_telemetry ⟨some 2, some 3, none, none, none, none, none, some 1⟩
        ⟨0, 0, 0, 0, 0, 0, 0⟩).decode_avg_s = emaOpt 0 none ∧
    (update_telemetry ⟨some 2, some 3, none, none, none, none, none, some 1⟩
        ⟨0, 0, 0, 0, 0, 0, 0⟩).latency_ms = emaOpt 0 none ∧
    (∀ v, (some (1 : ℚ) : Option ℚ) = some v → 0 < v →
      (update_telemetry ⟨some 2, some 3, none, none, none, none, none, some 1⟩
          ⟨0, 0, 0, 0, 0, 0, 0⟩).depth_fps = ema (emaOpt 0 none) (1 / v)) ∧
    (∀ v, (some (1 : ℚ) : Option ℚ) = some v → v ≤ 0 →
      (update_telemetry ⟨some 2, some 3, none, none, none, none, none, some 1⟩
          ⟨0, 0, 0, 0, 0, 0, 0⟩).depth_fps = emaOpt 0 none) ∧
    ((some (1 : ℚ) : Option ℚ) = none →
      (update_telemetry ⟨some 2, some 3, none, none, none, none, none, some 1⟩
          ⟨0, 0, 0, 0, 0, 0, 0⟩).depth_fps = emaOpt 0 none) ∧
    (update_telemetry ⟨some 2, some 3, none, none, none, none, none, some 1⟩
        ⟨0, 0, 0, 0, 0, 0, 0⟩).drop_count = 0 + (some (2 : ℚ)).getD 0 ∧
    (0 ≤ (some (2 : ℚ)).getD 0 →
      (0 : ℚ) ≤ (update_telemetry ⟨some 2, some 3, none, none, none, none, none, some 1⟩
        ⟨0, 0, 0, 0, 0, 0, 0⟩).drop_count) :=
  update_telemetry_ema_spec ⟨some 2, some 3, none, none, none, none, none, some 1⟩
    ⟨0, 0, 0, 0, 0, 0, 0⟩

/-- C8 counterexample to the claim as stated: a sample with total_s
present but non-positive (total_s = -1) leaves depth_fps untouched at 5,
whereas feeding the sample 1 / total_s through the EMA rule would move it
to 22/5, which is strictly below 5. -/
theorem update_telemetry_total_s_counterexample :
    (update_telemetry ⟨none, none, none, none, none, none, none, some (-1)⟩
        ⟨5, 0, 0, 0, 0, 0, 0⟩).depth_fps = 5 ∧
    ema 5 (1 / (-1 : ℚ)) = 22/5 ∧ (22/5 : ℚ) < 5 := by
  refine ⟨?_, ?_, by norm_num⟩
  · rw [update_telemetry_eq]
    norm_num [emaOpt]
  · norm_num [ema]

/-! ## Adaptive quality controller (VideoSession.adjust_quality)

The controller state is the telemetry entry quality_process_res (absent
until first initialized) and the cooldown counter.  Each telemetry
update ends with one adjust_quality call; the inputs are the rolling
stats it reads (infer_avg_s, queue_avg_s, latency_ms).  The model
records every telemetry write of quality_process_res and, when the
change branch fires, the (old, new) pair. -/

/-- The candidate resolution ladder, descending. -/
def allSteps : List ℤ := [960, 720, 640, 512, 480, 384, 320]

/-- The ladder filtered to entries at most the configured
depth_process_res; when the filter is empty, the singleton [max_res]. -/
def steps (maxRes : ℤ) : List ℤ :=
  if (allSteps.filter (fun x => decide (x ≤ maxRes))).isEmpty then [maxRes]
  else allSteps.filter (fun x => decide (x ≤ maxRes))

/-- One fold step of Python min(steps, key=lambda x: abs(x - cur)): keep
the earlier candidate on ties. -/
def minAbsFold (cur best y : ℤ) : ℤ := if |y - cur| < |best - cur| then y else best

/-- min(steps, key=lambda x: abs(x - cur)): the first entry at minimal
absolute distance from cur. -/
def closestStep (cur : ℤ) : List ℤ → ℤ
  | [] => cur
  | x :: xs => xs.foldl (minAbsFold cur) x

/-- The rolling stats read by the controller. -/
structure CtrlMetrics where
  infer : ℚ
  queue : ℚ
  latency : ℚ

/-- Controller state: the current quality_process_res telemetry entry
(none before initialization) and the cooldown counter. -/
structure QState where
  res : Option ℤ
  cooldown : ℕ
  deriving Repr, DecidableEq

/-- One adjust_quality invocation: new state, the list of telemetry
writes of quality_process_res it performed (the initialization write
and/or the change write), and the (old, new) pair when the change branch
fired. -/
structure AdjustOut where
  st : QState
  writes : List ℤ
  changed : Option (ℤ × ℤ)
  deriving Repr, DecidableEq

/-- The initialization write: when the telemetry key is absent the
controller first writes float(settings.depth_process_res). -/
def initWrites (maxRes : ℤ) : Option ℤ → List ℤ
  | some _ => []
  | none => [maxRes]

/-- Index for the next step: demote one step when any metric is bad,
promote one step when all metrics are good, clamped to the ladder. -/
def newIdxOf (m : CtrlMetrics) (len idx : ℕ) : ℕ :=
  if (1/5 : ℚ) < m.infer ∨ (3/10 : ℚ) < m.queue ∨ (500 : ℚ) < m.latency then
    if idx < len - 1 then idx + 1 else idx
  else if m.infer < 2/25 ∧ m.queue < 1/10 ∧ m.latency < 200 then
    if 0 < idx then idx - 1 else idx
  else idx

/-- The cooldown-expired body of adjust_quality.  It is entered only
with cooldown = 0, so the unchanged branch leaves cooldown at 0. -/
def adjustActive (maxRes : ℤ) (m : CtrlMetrics) (res : Option ℤ) : AdjustOut :=
  let cur := res.getD maxRes
  let stps := steps maxRes
  let idx := stps.indexOf (closestStep cur stps)
  let newIdx := newIdxOf m stps.length idx
  let newRes := stps.getD newIdx cur
  if newRes ≠ cur then
    ⟨⟨some newRes, 60⟩, initWrites maxRes res ++ [newRes], some (cur, newRes)⟩
  else
    ⟨⟨some cur, 0⟩, initWrites maxRes res, none⟩

/-- adjust_quality from VideoSession: while cooldown is positive,
decrement it and return; otherwise run the ladder logic. -/
def adjust_quality (maxRes : ℤ) (m : CtrlMetrics) (st : QState) : AdjustOut :=
  if 0 < st.cooldown then ⟨⟨st.res, st.cooldown - 1⟩, [], none⟩
  else adjustActive maxRes m st.res

/-- One adjust_quality call per telemetry update. -/
def runAdjust (maxRes : ℤ) (st : QState) : List CtrlMetrics → List AdjustOut
  | [] => []
  | m :: ms => adjust_quality maxRes m st :: runAdjust maxRes (adjust_quality maxRes m st).st ms

/-- a and b sit on neighbouring positions of l (in either order). -/
def adjacentIn (l : List ℤ) (a b : ℤ) : Prop :=
  ∃ i, (l[i]? = some a ∧ l[i + 1]? = some b) ∨ (l[i]? = some b ∧ l[i + 1]? = some a)

/-- The controller state only ever holds ladder values (once the
configured maximum is itself a ladder value). -/
def GoodSt (maxRes : ℤ) (st : QState) : Prop :=
  ∀ r, st.res = some r → r ∈ steps maxRes

lemma minAbsFold_le_left (cur x y : ℤ) : |minAbsFold cur x y - cur| ≤ |x - cur| := by
  unfold minAbsFold
  split_ifs with h
  · exact h.le
  · exact le_refl _

lemma minAbsFold_le_right (cur x y : ℤ) : |minAbsFold cur x y - cur| ≤ |y - cur| := by
  unfold minAbsFold
  split_ifs with h
  · exact le_refl _
  · exact not_lt.1 h

lemma foldl_minAbs_le_init (cur : ℤ) (xs : List ℤ) :
    ∀ x, |xs.foldl (minAbsFold cur) x - cur| ≤ |x - cur| := by
  induction xs with
  | nil => intro x; exact le_refl _
  | cons y ys ih =>
    intro x
    calc |(y :: ys).foldl (minAbsFold cur) x - cur|
        = |ys.foldl (minAbsFold cur) (minAbsFold cur x y) - cur| := rfl
      _ ≤ |minAbsFold cur x y - cur| := ih _
      _ ≤ |x - cur| := minAbsFold_le_left cur x y

lemma foldl_minAbs_le_mem (cur : ℤ) (xs : List ℤ) :
    ∀ x y, y ∈ xs → |xs.foldl (minAbsFold cur) x - cur| ≤ |y - cur| := by
  induction xs with
  | nil => intro x y hy; cases hy
  | cons z zs ih =>
    intro x y hy
    rcases List.mem_cons.1 hy with rfl | hy2
    · calc |(y :: zs).foldl (minAbsFold cur) x - cur|
          = |zs.foldl (minAbsFold cur) (minAbsFold cur x y) - cur| := rfl
        _ ≤ |minAbsFold cur x y - cur| := foldl_minAbs_le_init cur zs _
        _ ≤ |y - cur| := minAbsFold_le_right cur x y
    · exact ih (minAbsFold cur x z) y hy2

lemma foldl_minAbs_mem (cur : ℤ) (xs : List ℤ) :
    ∀ x, xs.foldl (minAbsFold cur) x = x ∨ xs.foldl (minAbsFold cur) x ∈ xs := by
  induction xs with
  | nil => intro x; exact Or.inl rfl
  | cons z zs ih =>
    intro x
    have hfold : (z :: zs).foldl (minAbsFold cur) x =
        zs.foldl (minAbsFold cur) (minAbsFold cur x z) := rfl
    have heqor : minAbsFold cur x z = x ∨ minAbsFold cur x z = z := by
      unfold minAbsFold
      split_ifs
      · exact Or.inr rfl
      · exact Or.inl rfl
    rcases ih (minAbsFold cur x z) with h | h
    · rcases heqor with he | he
      · left
        rw [hfold, h, he]
      · right
        rw [hfold, h, he]
        exact List.mem_cons_self z zs
    · right
      rw [hfold]
      exact List.mem_cons_of_mem z h

lemma closestStep_mem {cur : ℤ} {l : List ℤ} (hne : l ≠ []) : closestStep cur l ∈ l := by
  cases l with
  | nil => exact absurd rfl hne
  | cons x xs =>
    rcases foldl_minAbs_mem cur xs x with h | h
    · rw [closestStep, h]
      exact List.mem_cons_self x xs
    · exact List.mem_cons_of_mem x h

lemma closestStep_self {cur : ℤ} {l : List ℤ} (h : cur ∈ l) : closestStep cur l = cur := by
  cases l with
  | nil => cases h
  | cons x xs =>
    have hunf : closestStep cur (x :: xs) = xs.foldl (minAbsFold cur) x := rfl
    have hle : |closestStep cur (x :: xs) - cur| ≤ 0 := by
      rw [hunf]
      rcases List.mem_cons.1 h with rfl | hmem
      · simpa using foldl_minAbs_le_init cur xs cur
      · simpa using foldl_minAbs_le_mem cur xs x cur hmem
    have habs : |closestStep cur (x :: xs) - cur| = 0 := le_antisymm hle (abs_nonneg _)
    have hz : closestStep cur (x :: xs) - cur = 0 := abs_eq_zero.1 habs
    omega

lemma steps_of_mem {maxRes : ℤ} (h : maxRes ∈ allSteps) :
    steps maxRes = allSteps.filter (fun x => decide (x ≤ maxRes)) ∧
      maxRes ∈ steps maxRes := by
  have hmem : maxRes ∈ allSteps.filter (fun x => decide (x ≤ maxRes)) :=
    List.mem_filter.2 ⟨h, by simp⟩
  have hne : (allSteps.filter (fun x => decide (x ≤ maxRes))).isEmpty = false := by
    rw [List.isEmpty_eq_false]
    exact List.ne_nil_of_mem hmem
  have heq : steps maxRes = allSteps.filter (fun x => decide (x ≤ maxRes)) := by
    unfold steps
    rw [hne]
    exact if_neg (by simp)
  exact ⟨heq, heq ▸ hmem⟩

lemma newIdxOf_cases (m : CtrlMetrics) (len idx : ℕ) :
    newIdxOf m len idx = idx ∨
      (newIdxOf m len idx = idx + 1 ∧ idx + 1 < len) ∨
      (newIdxOf m len idx = idx - 1 ∧ 0 < idx) := by
  unfold newIdxOf
  split_ifs <;> omega

lemma adjust_cooldown_pos (maxRes : ℤ) (m : CtrlMetrics) {st : QState}
    (h : 0 < st.cooldown) :
    adjust_quality maxRes m st = ⟨⟨st.res, st.cooldown - 1⟩, [], none⟩ := by
  unfold adjust_quality
  rw [if_pos h]

lemma adjust_step {maxRes : ℤ} (hmax : maxRes ∈ allSteps) (m : CtrlMetrics) (st : QState)
    (hst : GoodSt maxRes st) :
    GoodSt maxRes (adjust_quality maxRes m st).st ∧
    (∀ v ∈ (adjust_quality maxRes m st).writes, v ∈ steps maxRes) ∧
    (∀ p, (adjust_quality maxRes m st).changed = some p →
      adjacentIn (steps maxRes) p.1 p.2) := by
  obtain ⟨hsteps, hmaxmem⟩ := steps_of_mem hmax
  unfold adjust_quality
  split_ifs with hcool
  · exact ⟨fun r hr => hst r hr, by simp, by simp⟩
  · simp only [adjustActive]
    set cur : ℤ := st.res.getD maxRes with hcurdef
    have hcur : cur ∈ steps maxRes := by
      cases hres : st.res with
      | none => rw [hcurdef, hres]; exact hmaxmem
      | some r =>
        have := hst r hres
        rw [hcurdef, hres]
        simpa using this
    have hclosest : closestStep cur (steps maxRes) = cur := closestStep_self hcur
    rw [hclosest]
    set stps := steps maxRes with hstpsdef
    set idx := stps.indexOf cur with hidxdef
    have hidx : idx < stps.length := by
      rw [hidxdef]
      exact List.indexOf_lt_length.2 hcur
    have hgetidx : stps[idx] = cur :=
      List.getElem_indexOf (List.indexOf_lt_length.2 hcur)
    set nIdx := newIdxOf m stps.length idx with hnidxdef
    have hnidx : nIdx < stps.length := by
      rcases newIdxOf_cases m stps.length idx with h | ⟨h, h2⟩ | ⟨h, h2⟩ <;> omega
    have hnewRes : stps.getD nIdx cur = stps[nIdx] :=
      List.getD_eq_getElem stps cur hnidx
    have hnewmem : stps.getD nIdx cur ∈ stps := by
      rw [hnewRes]
      exact List.getElem_mem hnidx
    have hinitw : ∀ v ∈ initWrites maxRes st.res, v ∈ stps := by
      cases hres : st.res with
      | none => intro v hv; simp [initWrites] at hv; rw [hv]; exact hmaxmem
      | some r => intro v hv; simp [initWrites] at hv
    split_ifs with hne
    · refine ⟨?_, ?_, ?_⟩
      · intro r hr
        simp only [Option.some.injEq] at hr
        rw [← hr]
        exact hnewmem
      · intro v hv
        rcases List.mem_append.1 hv with hv1 | hv2
        · exact hinitw v hv1
        · simp only [List.mem_singleton] at hv2
          rw [hv2]
          exact hnewmem
      · intro p hp
        simp only [Option.some.injEq] at hp
        rw [← hp]
        rcases newIdxOf_cases m stps.length idx with h | ⟨h, h2⟩ | ⟨h, h2⟩
        · exfalso
          apply hne
          rw [← hnidxdef] at h
          rw [h, List.getD_eq_getElem stps cur (h ▸ hidx), hgetidx]
        · refine ⟨idx, Or.inl ⟨?_, ?_⟩⟩
          · rw [List.getElem?_eq_getElem hidx, hgetidx]
          · rw [← hnidxdef] at h
            rw [← h, List.getElem?_eq_getElem hnidx, ← hnewRes]
        · refine ⟨idx - 1, Or.inr ⟨?_, ?_⟩⟩
          · rw [← hnidxdef] at h
            rw [← h, List.getElem?_eq_getElem hnidx, ← hnewRes]
          · have hsub : idx - 1 + 1 = idx := by omega
            rw [hsub, List.getElem?_eq_getElem hidx, hgetidx]
    · refine ⟨?_, ?_, by simp⟩
      · intro r hr
        simp only [Option.some.injEq] at hr
        rw [← hr]
        exact hcur
      · intro v hv
        exact hinitw v hv

lemma adjust_changed_cooldown (maxRes : ℤ) (m : CtrlMetrics) (st : QState)
    (h : (adjust_quality maxRes m st).changed.isSome) :
    (adjust_quality maxRes m st).st.cooldown = 60 := by
  unfold adjust_quality at h ⊢
  split_ifs at h ⊢ with hcool
  · simp at h
  · simp only [adjustActive] at h ⊢
    split_ifs at h ⊢ with hne
    · rfl
    · simp at h

lemma runAdjust_good {maxRes : ℤ} (hmax : maxRes ∈ allSteps) (ms : List CtrlMetrics) :
    ∀ st, GoodSt maxRes st →
      ∀ o ∈ runAdjust maxRes st ms,
        (∀ v ∈ o.writes, v ∈ steps maxRes) ∧
        (∀ p, o.changed = some p → adjacentIn (steps maxRes) p.1 p.2) := by
  induction ms with
  | nil =>
    intro st hst o ho
    simp [runAdjust] at ho
  | cons m rest ih =>
    intro st hst o ho
    obtain ⟨hg, hw, hc⟩ := adjust_step hmax m st hst
    simp only [runAdjust, List.mem_cons] at ho
    rcases ho with rfl | ho
    · exact ⟨hw, hc⟩
    · exact ih _ hg o ho

lemma runAdjust_no_change_window (maxRes : ℤ) (ms : List CtrlMetrics) :
    ∀ (st : QState) (k : ℕ), k < st.cooldown →
      ∀ o, (runAdjust maxRes st ms)[k]? = some o → o.changed = none := by
  induction ms with
  | nil =>
    intro st k hk o ho
    simp [runAdjust] at ho
  | cons m rest ih =>
    intro st k hk o ho
    have hcool : 0 < st.cooldown := by omega
    have hadj := adjust_cooldown_pos maxRes m hcool
    cases k with
    | zero =>
      simp only [runAdjust, List.getElem?_cons_zero, Option.some.injEq] at ho
      rw [← ho, hadj]
    | succ k2 =>
      simp only [runAdjust, List.getElem?_cons_succ] at ho
      refine ih (adjust_quality maxRes m st).st k2 ?_ o ho
      rw [hadj]
      simp only
      omega

lemma runAdjust_get_shape (maxRes : ℤ) (ms : List CtrlMetrics) :
    ∀ (st : QState) (i : ℕ) (o : AdjustOut), (runAdjust maxRes st ms)[i]? = some o →
      ∃ st2 m2, o = adjust_quality maxRes m2 st2 := by
  induction ms with
  | nil =>
    intro st i o ho
    simp [runAdjust] at ho
  | cons m rest ih =>
    intro st i o ho
    cases i with
    | zero =>
      simp only [runAdjust, List.getElem?_cons_zero, Option.some.injEq] at ho
      exact ⟨st, m, ho.symm⟩
    | succ i2 =>
      simp only [runAdjust, List.getElem?_cons_succ] at ho
      exact ih _ i2 o ho

lemma runAdjust_drop (maxRes : ℤ) (ms : List CtrlMetrics) :
    ∀ (st : QState) (i : ℕ) (o : AdjustOut), (runAdjust maxRes st ms)[i]? = some o →
      (runAdjust maxRes st ms).drop (i + 1) = runAdjust maxRes o.st (ms.drop (i + 1)) := by
  induction ms with
  | nil =>
    intro st i o ho
    simp [runAdjust] at ho
  | cons m rest ih =>
    intro st i o ho
    cases i with
    | zero =>
      simp only [runAdjust, List.getElem?_cons_zero, Option.some.injEq] at ho
      simp only [runAdjust, List.drop_succ_cons, List.drop_zero]
      rw [ho]
    | succ i2 =>
      simp only [runAdjust, List.getElem?_cons_succ] at ho
      simp only [runAdjust, List.drop_succ_cons]
      exact ih (adjust_quality maxRes m st).st i2 o ho

/-- C5 (amended): when the configured depth_process_res is itself a
ladder value, the controller only ever writes quality_process_res values
from the filtered ladder steps(maxRes); every change moves between
neighbouring ladder entries; and any two changes are separated by more
than the 60-update cooldown (so at least 60 updates lie strictly between
them). -/
theorem adjust_quality_ladder_spec (maxRes : ℤ) (hmax : maxRes ∈ allSteps)
    (ms : List CtrlMetrics) :
    (∀ o ∈ runAdjust maxRes ⟨none, 0⟩ ms, ∀ v ∈ o.writes, v ∈ steps maxRes) ∧
    (∀ o ∈ runAdjust maxRes ⟨none, 0⟩ ms, ∀ p, o.changed = some p →
      adjacentIn (steps maxRes) p.1 p.2) ∧
    (∀ i j oi oj, (runAdjust maxRes ⟨none, 0⟩ ms)[i]? = some oi →
      (runAdjust maxRes ⟨none, 0⟩ ms)[j]? = some oj →
      oi.changed.isSome → oj.changed.isSome → i < j → i + 60 < j) := by
  have hinit : GoodSt maxRes ⟨none, 0⟩ := by
    intro r hr
    simp at hr
  refine ⟨fun o ho => ((runAdjust_good hmax ms ⟨none, 0⟩ hinit o ho)).1,
    fun o ho => ((runAdjust_good hmax ms ⟨none, 0⟩ hinit o ho)).2, ?_⟩
  intro i j oi oj hoi hoj hci hcj hij
  by_contra hlt
  push_neg at hlt
  obtain ⟨st2, m2, hshape⟩ := runAdjust_get_shape maxRes ms ⟨none, 0⟩ i oi hoi
  have hcd : oi.st.cooldown = 60 := by
    rw [hshape]
    rw [hshape] at hci
    exact adjust_changed_cooldown maxRes m2 st2 hci
  have hdrop := runAdjust_drop maxRes ms ⟨none, 0⟩ i oi hoi
  have hoj2 : (runAdjust maxRes oi.st (ms.drop (i + 1)))[j - i - 1]? = some oj := by
    rw [← hdrop, List.getElem?_drop]
    have heq : i + 1 + (j - i - 1) = j := by omega
    rw [heq]
    exact hoj
  have hnone := runAdjust_no_change_window maxRes (ms.drop (i + 1)) oi.st (j - i - 1)
    (by omega) oj hoj2
  rw [hnone] at hcj
  simp at hcj

/-- Closed witness for adjust_quality_ladder_spec at the default
configured resolution 640 and a single neutral telemetry update. -/
theorem adjust_quality_ladder_spec_witness :
    (640 : ℤ) ∈ allSteps ∧
    ((∀ o ∈ runAdjust 640 ⟨none, 0⟩ [⟨0, 0, 0⟩], ∀ v ∈ o.writes, v ∈ steps 640) ∧
      (∀ o ∈ runAdjust 640 ⟨none, 0⟩ [⟨0, 0, 0⟩], ∀ p, o.changed = some p →
        adjacentIn (steps 640) p.1 p.2) ∧
      (∀ i j oi oj, (runAdjust 640 ⟨none, 0⟩ [⟨0, 0, 0⟩])[i]? = some oi →
        (runAdjust 640 ⟨none, 0⟩ [⟨0, 0, 0⟩])[j]? = some oj →
        oi.changed.isSome → oj.changed.isSome → i < j → i + 60 < j)) :=
  ⟨by decide, adjust_quality_ladder_spec 640 (by decide) [⟨0, 0, 0⟩]⟩

/-- C5 counterexample to the claim as stated: with a configured
depth_process_res of 600 (not itself a ladder value), the very first
telemetry update makes the controller write 600 to quality_process_res
(the initialization write) and then snap-change it to 512; 600 lies
outside the filtered ladder {s in [960, 720, 640, 512, 480, 384, 320] :
s ≤ 600} = [512, 480, 384, 320]. -/
theorem adjust_quality_offladder_counterexample :
    runAdjust 600 ⟨none, 0⟩ [⟨0, 0, 0⟩] =
      [⟨⟨some 512, 60⟩, [600, 512], some (600, 512)⟩] ∧
    (600 : ℤ) ∉ steps 600 ∧
    steps 600 = [512, 480, 384, 320] := by
  have hsteps : steps 600 = [512, 480, 384, 320] := by decide
  have hnot : (600 : ℤ) ∉ steps 600 := by decide
  have hclosest : closestStep 600 (steps 600) = 512 := by decide
  have hidx : List.indexOf (512 : ℤ) (steps 600) = 0 := by decide
  refine ⟨?_, hnot, hsteps⟩
  have hnew : newIdxOf ⟨0, 0, 0⟩ (steps 600).length 0 = 0 := by
    unfold newIdxOf
    norm_num
  have hact : adjustActive 600 ⟨0, 0, 0⟩ none =
      ⟨⟨some 512, 60⟩, [600, 512], some (600, 512)⟩ := by
    simp only [adjustActive, Option.getD_none, hclosest, hidx, hnew, initWrites]
    norm_num [hsteps]
  simp only [runAdjust, adjust_quality]
  norm_num [hact]

/-! ## Frame decoder (backend/video/io.py)

The PyAV container is modelled as the list of decoded frames in
presentation order, each carrying its time in milliseconds (negative for
a missing pts) and a keyframe flag.  The decode iterator is the list of
remaining frames; container.seek(backward=True) lands on the closest
keyframe at or before the target, modelled at millisecond precision. -/

structure StreamFrame where
  time_ms : ℚ
  key : Bool
  deriving Repr, DecidableEq

/-- Decoder position state: the remaining frame iterator (none models
_frame_iter = None on a fresh decoder) and _last_frame_time_ms. -/
structure DecState where
  iter : Option (List StreamFrame)
  lastTime : Option ℚ
  deriving Repr, DecidableEq

/-- should_stream_forward: true when the last returned frame exists and
the target lies in the forward window of STREAM_WINDOW_MS = 1000. -/
def should_stream_forward (st : DecState) (t : ℚ) : Bool :=
  match st.lastTime with
  | none => false
  | some l => decide (0 ≤ t - l) && decide (t - l ≤ 1000)

/-- The index of the closest keyframe at or before the target time
(scanning from the end); 0 when none qualifies, matching a seek to the
start of the stream. -/
def seekIdx (frames : List StreamFrame) (t : ℚ) : ℕ → ℕ
  | 0 => 0
  | i + 1 =>
    if (frames.getD i ⟨0, false⟩).key ∧ (frames.getD i ⟨0, false⟩).time_ms ≤ t then i
    else seekIdx frames t i

/-- The _advance_to loop: pull frames from the iterator; return the
current frame once it has no pts, reaches the target, or the scan cap
MAX_SCAN_FRAMES = 360 is hit; raise StopIteration (Except.error) when
the iterator is exhausted first.  Returns the frame, the number of
frames examined, the remaining iterator and the new last-frame time. -/
def advanceTo (t : ℚ) : List StreamFrame → ℕ →
    Except Unit (StreamFrame × ℕ × List StreamFrame × ℚ)
  | [], _ => Except.error ()
  | fr :: rest, examined =>
    if fr.time_ms < 0 ∨ t ≤ (if 0 ≤ fr.time_ms then fr.time_ms else t) ∨ 360 ≤ examined + 1 then
      Except.ok (fr, examined + 1, rest, if 0 ≤ fr.time_ms then fr.time_ms else t)
    else advanceTo t rest (examined + 1)

/-- decode_at from FrameDecoder: clamp the target to 0, stream forward
when the locality window allows it, otherwise seek to the nearest
keyframe at or before the target and reset the iterator; then advance.
A none iterator resets to the start of the stream. -/
def decode_at (frames : List StreamFrame) (st : DecState) (time_ms : ℚ) :
    Except Unit (StreamFrame × ℕ × DecState) :=
  let t := max time_ms 0
  let st2 := if should_stream_forward st t then st
             else ⟨some (frames.drop (seekIdx frames t frames.length)), none⟩
  match advanceTo t (st2.iter.getD frames) 0 with
  | Except.error () => Except.error ()
  | Except.ok (fr, n, rest, actual) => Except.ok (fr, n, ⟨some rest, some actual⟩)

lemma advanceTo_spec (t : ℚ) (l : List StreamFrame) :
    ∀ (examined n : ℕ) (fr : StreamFrame) (rest : List StreamFrame) (actual : ℚ),
      advanceTo t l examined = Except.ok (fr, n, rest, actual) →
      t ≤ fr.time_ms ∨ fr.time_ms < 0 ∨ 360 ≤ n := by
  induction l with
  | nil =>
    intro examined n fr rest actual h
    simp [advanceTo] at h
  | cons f fs ih =>
    intro examined n fr rest actual h
    rw [advanceTo] at h
    by_cases hret : f.time_ms < 0 ∨
        t ≤ (if 0 ≤ f.time_ms then f.time_ms else t) ∨ 360 ≤ examined + 1
    · rw [if_pos hret] at h
      simp only [Except.ok.injEq, Prod.mk.injEq] at h
      obtain ⟨rfl, rfl, -, -⟩ := h
      rcases hret with h1 | h2 | h3
      · exact Or.inr (Or.inl h1)
      · by_cases hpos : 0 ≤ f.time_ms
        · rw [if_pos hpos] at h2
          exact Or.inl h2
        · exact Or.inr (Or.inl (not_le.1 hpos))
      · exact Or.inr (Or.inr h3)
    · rw [if_neg hret] at h
      exact ih (examined + 1) n fr rest actual h

/-- C6 (amended): whenever decode_at returns a frame, that frame either
has presentation time at least the (clamped) target, or has no valid pts
(negative time_ms), or was returned because the scan cap of
MAX_SCAN_FRAMES = 360 frames was hit.  When the iterator is exhausted
before any of these, decode_at raises StopIteration instead of returning
the last frame of the stream. -/
theorem decode_at_reaches_target (frames : List StreamFrame) (st : DecState)
    (time_ms : ℚ) (fr : StreamFrame) (n : ℕ) (st2 : DecState)
    (h : decode_at frames st time_ms = Except.ok (fr, n, st2)) :
    max time_ms 0 ≤ fr.time_ms ∨ fr.time_ms < 0 ∨ 360 ≤ n := by
  simp only [decode_at] at h
  split at h
  · simp at h
  · rename_i fr2 n2 rest2 actual2 heq
    simp only [Except.ok.injEq, Prod.mk.injEq] at h
    obtain ⟨rfl, rfl, -⟩ := h
    exact advanceTo_spec (max time_ms 0) _ 0 _ _ _ _ heq

/-- Closed witness for decode_at_reaches_target: a fresh decoder over a
single frame at 50 ms, asked for 10 ms, returns that frame. -/
theorem decode_at_reaches_target_witness :
    decode_at [⟨50, true⟩] ⟨none, none⟩ 10 =
      Except.ok (⟨50, true⟩, 1, ⟨some [], some 50⟩) ∧
    (max (10 : ℚ) 0 ≤ (50 : ℚ) ∨ (50 : ℚ) < 0 ∨ 360 ≤ 1) :=
  ⟨by decide,
    decode_at_reaches_target [⟨50, true⟩] ⟨none, none⟩ 10 ⟨50, true⟩ 1 ⟨some [], some 50⟩
      (by decide)⟩

/-- C6 counterexample to the claim as stated: a stream with a single
keyframe at 0 ms, fresh decoder, target 100 ms.  The seek lands at the
keyframe, the frame at 0 ms does not reach the target, and the iterator
is then exhausted, so decode_at raises StopIteration (Except.error)
instead of returning the last frame of the stream. -/
theorem decode_at_eof_counterexample :
    decode_at [⟨0, true⟩] ⟨none, none⟩ 100 = Except.error () := by
  decide

/-! ## Ordered send queue (backend/routers/stream.py)

The processor dequeues requests one at a time, spawns a pipeline task
per request and appends the task handle to the ordered send queue in
that dequeue order; pipeline tasks complete in an arbitrary order; the
sender pops handles strictly FIFO and awaits each, emitting the payload
(when there is one) before touching the next handle.  This is modelled
as a labelled transition system whose complete step is unconstrained, so
every interleaving of completions with processing and sending is a run
of the system. -/

/-- A pipeline task handle: the request's position in the dequeue stream
and the binary payload its task will produce (none when the task yields
no payload, e.g. decode EOF). -/
structure PipeTask where
  id : ℕ
  payload : Option ℕ
  deriving Repr, DecidableEq

/-- Connection state: requests not yet dequeued (in dequeue order), the
ordered send queue of task handles, the ids of completed pipeline tasks,
and the payloads written to the channel in order. -/
structure PipeState where
  pending : List PipeTask
  sendq : List PipeTask
  completed : List ℕ
  output : List ℕ
  deriving Repr, DecidableEq

/-- One scheduler step of the streaming pipeline. -/
inductive PipeStep : PipeState → PipeState → Prop
  | dequeue (t : PipeTask) (rest sendq : List PipeTask) (completed output : List ℕ) :
      PipeStep ⟨t :: rest, sendq, completed, output⟩
        ⟨rest, sendq ++ [t], completed, output⟩
  | complete (i : ℕ) (pending sendq : List PipeTask) (completed output : List ℕ) :
      PipeStep ⟨pending, sendq, completed, output⟩
        ⟨pending, sendq, i :: completed, output⟩
  | send (t : PipeTask) (pending rest : List PipeTask) (completed output : List ℕ)
      (hdone : t.id ∈ completed) :
      PipeStep ⟨pending, t :: rest, completed, output⟩
        ⟨pending, rest, completed, output ++ t.payload.toList⟩

lemma take_succ_of_decomp (ts : List PipeTask) (k : ℕ) (t : PipeTask)
    (rest : List PipeTask) (hk : (ts.take k).length = k)
    (hdecomp : ts = ts.take k ++ t :: rest) :
    ts.take (k + 1) = ts.take k ++ [t] := by
  have hlen1 : k + 1 = (ts.take k).length + 1 := by omega
  conv_lhs => rw [hdecomp, hlen1, List.take_append]
  simp

lemma filterMap_take_succ (ts : List PipeTask) (k : ℕ) (t : PipeTask)
    (rest : List PipeTask) (hk : (ts.take k).length = k)
    (hdecomp : ts = ts.take k ++ t :: rest) :
    (ts.take (k + 1)).filterMap PipeTask.payload =
      (ts.take k).filterMap PipeTask.payload ++ t.payload.toList := by
  rw [take_succ_of_decomp ts k t rest hk hdecomp, List.filterMap_append]
  congr 1

/-- C1: in every reachable state of the streaming pipeline, the payloads
written to the channel are exactly the payloads of a prefix of the
processor's dequeue stream, in dequeue order, regardless of the order in
which the pipeline tasks completed; the remaining send queue holds the
following handles still in dequeue order. -/
theorem sender_preserves_order (ts : List PipeTask) (s : PipeState)
    (h : Relation.ReflTransGen PipeStep ⟨ts, [], [], []⟩ s) :
    ∃ k, k ≤ ts.length ∧
      s.output = (ts.take k).filterMap PipeTask.payload ∧
      ts = ts.take k ++ s.sendq ++ s.pending := by
  induction h with
  | refl => exact ⟨0, Nat.zero_le _, rfl, by simp⟩
  | tail hsteps hstep ih =>
    obtain ⟨k, hk, hout, hdecomp⟩ := ih
    cases hstep with
    | dequeue t rest sendq completed output =>
      refine ⟨k, hk, hout, ?_⟩
      simp only at hdecomp ⊢
      calc ts = ts.take k ++ sendq ++ t :: rest := hdecomp
        _ = ts.take k ++ (sendq ++ [t]) ++ rest := by simp
    | complete i pending sendq completed output =>
      exact ⟨k, hk, hout, hdecomp⟩
    | send t pending rest completed output hdone =>
      simp only at hdecomp hout ⊢
      have hklen : (ts.take k).length = k := by
        rw [List.length_take]
        omega
      have hdecomp2 : ts = ts.take k ++ t :: (rest ++ pending) :=
        calc ts = ts.take k ++ t :: rest ++ pending := hdecomp
          _ = ts.take k ++ t :: (rest ++ pending) := by simp
      refine ⟨k + 1, ?_, ?_, ?_⟩
      · have : ts.length = k + 1 + (rest ++ pending).length := by
          rw [hdecomp2]
          simp only [List.length_append, List.length_cons, hklen]
          omega
        omega
      · rw [hout, filterMap_take_succ ts k t (rest ++ pending) hklen hdecomp2]
      · rw [take_succ_of_decomp ts k t (rest ++ pending) hklen hdecomp2]
        calc ts = ts.take k ++ t :: (rest ++ pending) := hdecomp2
          _ = ts.take k ++ [t] ++ rest ++ pending := by simp

/-- Closed witness for sender_preserves_order: two requests whose tasks
complete in reverse order; the sender still emits the payloads in
dequeue order. -/
theorem sender_preserves_order_witness :
    ∃ k, k ≤ ([⟨0, some 10⟩, ⟨1, some 20⟩] : List PipeTask).length ∧
      ([10, 20] : List ℕ) =
        (([⟨0, some 10⟩, ⟨1, some 20⟩] : List PipeTask).take k).filterMap
          PipeTask.payload ∧
      ([⟨0, some 10⟩, ⟨1, some 20⟩] : List PipeTask) =
        ([⟨0, some 10⟩, ⟨1, some 20⟩] : List PipeTask).take k ++ [] ++ [] :=
  sender_preserves_order [⟨0, some 10⟩, ⟨1, some 20⟩] ⟨[], [], [0, 1], [10, 20]⟩
    (Relation.ReflTransGen.head
      (PipeStep.dequeue ⟨0, some 10⟩ [⟨1, some 20⟩] [] [] [])
      (Relation.ReflTransGen.head
        (PipeStep.dequeue ⟨1, some 20⟩ [] [⟨0, some 10⟩] [] [])
        (Relation.ReflTransGen.head
          (PipeStep.complete 1 [] [⟨0, some 10⟩, ⟨1, some 20⟩] [] [])
          (Relation.ReflTransGen.head
            (PipeStep.complete 0 [] [⟨0, some 10⟩, ⟨1, some 20⟩] [1] [])
            (Relation.ReflTransGen.head
              (PipeStep.send ⟨0, some 10⟩ [] [⟨1, some 20⟩] [0, 1] [] (by simp))
              (Relation.ReflTransGen.head
                (PipeStep.send ⟨1, some 20⟩ [] [] [0, 1] [10] (by simp))
                Relation.ReflTransGen.refl))))))

end VDV
